import Mathlib

/-!
Verification of the render–pace–mix–encode–broadcast pipeline of the
`claude-dj-mcp` stream manager (`src/stream-manager.ts`, per-cycle render
variant) and of the sample quantization step of `src/mp3-encoder.ts`.

Modelling conventions:
* JS `number` values that carry audio samples, tempos, positions and
  millisecond times are modelled as exact rationals (`ℚ`); the spec's
  arithmetic claims are stated in exact arithmetic.
* A stereo PCM buffer (`left`/`right` pair of equal-length Float32Arrays)
  is modelled as a single list of `(left, right)` sample pairs, matching
  the equal-length contract of the external renderer (spec §6).
* The external MP3 compressor (lamejs) and the external pattern renderer
  are not part of this repository; they are abstracted as oracle
  functions / oracle results passed to the embedded operations.
* Stateful module-level variables become explicit state records threaded
  through the embedded functions.
-/

namespace DJ

/-- Stereo PCM sample: the pair of a left and a right channel value. -/
abbrev Sample : Type := ℚ × ℚ

/-- MP3 byte buffer contents (a Node `Buffer` is a byte sequence). -/
abbrev Bytes : Type := List ℕ

/-- Source constant `duckFactor = 0.4` in `mixTts`. -/
def duckFactor : ℚ := 0.4

/-- Source constant `speechGain = 1.2` in `mixTts`. -/
def speechGain : ℚ := 1.2

/-- One sample of the in-place mix performed by `mixTts`:
`music * duckFactor + tts * speechGain`, on both channels. -/
def mixSample (m s : Sample) : Sample :=
  (m.1 * duckFactor + s.1 * speechGain, m.2 * duckFactor + s.2 * speechGain)

/-- State of the TTS announcement queue of `stream-manager.ts`:
the module variables `ttsQueue` (a FIFO list of stereo PCM buffers) and
`ttsOffset` (how far into the head buffer playback has consumed). -/
structure TtsState where
  ttsQueue : List (List Sample)
  ttsOffset : ℕ
deriving DecidableEq

/-- Initial module state: `ttsQueue = []`, `ttsOffset = 0`. -/
def initTts : TtsState := ⟨[], 0⟩

/-- The `while (outputIdx < totalSamples && ttsQueue.length > 0)` loop of
`mixTts`.  `music` is the not-yet-written suffix of the music buffer
(from `outputIdx` on); the result is the processed music buffer together
with the final queue and offset.  `toMix = min(ttsRemaining, samples left)`
and an entry is shifted off the queue (with the offset reset to `0`)
exactly when the offset reaches its length, as in the source.  Offsets
stay `≤` the head length on every reachable state, so the truncated `ℕ`
subtraction agrees with the source's arithmetic there. -/
def mixLoop : List Sample → List (List Sample) → ℕ → List Sample × List (List Sample) × ℕ
  | music, [], off => (music, [], off)
  | music, t :: rest, off =>
    if music = [] then (music, t :: rest, off)
    else
      let toMix := min (t.length - off) music.length
      if t.length ≤ off + toMix then
        let r := mixLoop (music.drop toMix) rest 0
        (List.zipWith mixSample (music.take toMix) ((t.drop off).take toMix) ++ r.1, r.2)
      else
        (List.zipWith mixSample (music.take toMix) ((t.drop off).take toMix) ++ music.drop toMix,
          t :: rest, off + toMix)

/-- Embedding of `mixTts(left, right)`: mixes queued TTS audio into the
music buffer in place, returning the mixed buffer and the updated queue
state.  The early return on an empty queue is the source's first line. -/
def mixTts (music : List Sample) (st : TtsState) : List Sample × TtsState :=
  if st.ttsQueue.length = 0 then (music, st)
  else
    let r := mixLoop music st.ttsQueue st.ttsOffset
    (r.1, ⟨r.2.1, r.2.2⟩)

/-- Embedding of `mixTtsAudio(left, right)`: pushes a stereo PCM buffer
onto the tail of the TTS queue; `ttsOffset` is deliberately not reset. -/
def mixTtsAudio (buf : List Sample) (st : TtsState) : TtsState :=
  ⟨st.ttsQueue ++ [buf], st.ttsOffset⟩

/-- Remaining (not yet consumed) announcement samples of a queue and
offset, in consumption order: the head entry from the stored offset on,
followed by the later entries in FIFO order. -/
def streamOf : List (List Sample) → ℕ → List Sample
  | [], _ => []
  | t :: rest, off => t.drop off ++ rest.flatten

/-- Remaining announcement samples of a `TtsState`. -/
def streamSt (st : TtsState) : List Sample :=
  streamOf st.ttsQueue st.ttsOffset

/-- One external operation on the announcement queue: `mixTtsAudio`
(submission) or `mixTts` over a music chunk (consumption). -/
inductive TtsOp where
  | push (buf : List Sample)
  | mix (music : List Sample)
deriving DecidableEq

/-- Run a sequence of queue operations from a given state. -/
def runTts (st : TtsState) : List TtsOp → TtsState
  | [] => st
  | TtsOp.push b :: rest => runTts (mixTtsAudio b st) rest
  | TtsOp.mix m :: rest => runTts (mixTts m st).2 rest

/-- Announcement samples consumed by the `mix` calls of an operation
sequence, in consumption order (each call consumes the first
`min (chunk length) (remaining)` pending samples). -/
def consumedTts (st : TtsState) : List TtsOp → List Sample
  | [] => []
  | TtsOp.push b :: rest => consumedTts (mixTtsAudio b st) rest
  | TtsOp.mix m :: rest =>
      (streamSt st).take m.length ++ consumedTts (mixTts m st).2 rest

/-- Announcement samples submitted by the `push` calls of an operation
sequence, in submission order. -/
def pushedTts : List TtsOp → List Sample
  | [] => []
  | TtsOp.push b :: rest => b ++ pushedTts rest
  | TtsOp.mix _ :: rest => pushedTts rest

/-- Decidable check that every buffer submitted in an operation sequence
is non-empty. -/
def pushesNonempty (ops : List TtsOp) : Bool :=
  ops.all fun op =>
    match op with
    | TtsOp.push b => !b.isEmpty
    | TtsOp.mix _ => true

/-- The offset invariant of claim C10: the consumption offset is
non-negative, zero on an empty queue, and strictly below the head
entry's length on a non-empty queue. -/
def ttsInv (st : TtsState) : Prop :=
  (0 : ℤ) ≤ (st.ttsOffset : ℤ) ∧
  match st.ttsQueue with
  | [] => st.ttsOffset = 0
  | t :: _ => st.ttsOffset < t.length

/-- Weak well-formedness of a queue state, maintained by the source even
for zero-length buffers: zero offset on an empty queue, offset at most
the head entry's length otherwise. -/
def ttsWF (st : TtsState) : Prop :=
  match st.ttsQueue with
  | [] => st.ttsOffset = 0
  | t :: _ => st.ttsOffset ≤ t.length

/-- One connected listener: its identity and whether `write` throws on
this sink (a broken pipe or closed connection). -/
structure Sink where
  id : ℕ
  fails : Bool
deriving DecidableEq

/-- Iteration of `broadcast` over the client set: each client is written
to inside `try`; a client whose write throws is deleted from the set and
the loop continues with the remaining clients.  Returns the surviving
client list and the deliveries `(client id, data)` made, in iteration
order. -/
def broadcastGo (data : Bytes) : List Sink → List Sink × List (ℕ × Bytes)
  | [] => ([], [])
  | c :: rest =>
    let r := broadcastGo data rest
    if c.fails then r else (c :: r.1, (c.id, data) :: r.2)

/-- Embedding of `broadcast(data)`: empty buffers are skipped entirely
(`if (data.length === 0) return`), otherwise the buffer is written to
every currently-registered sink with per-sink fault isolation. -/
def broadcast (data : Bytes) (cs : List Sink) : List Sink × List (ℕ × Bytes) :=
  if data.length = 0 then (cs, []) else broadcastGo data cs

/-- One externally visible operation on the broadcast registry:
`addClient`, the close event of a client's connection (which deletes it
from the set), or a broadcast of a byte buffer. -/
inductive RegOp where
  | add (id : ℕ)
  | close (id : ℕ)
  | publish (data : Bytes)
deriving DecidableEq

/-- Effect of one registry operation on the set of registered client ids
(a JS `Set`: adding an existing element is a no-op, close deletes). -/
def regStep (regs : List ℕ) : RegOp → List ℕ
  | RegOp.add i => if i ∈ regs then regs else regs ++ [i]
  | RegOp.close i => regs.erase i
  | RegOp.publish _ => regs

/-- Bytes received by client `id` over a trace of registry operations,
starting from the registered set `regs`: each non-empty published buffer
is written to every currently registered client. -/
def recvBy (id : ℕ) : List ℕ → List RegOp → Bytes
  | _, [] => []
  | regs, op :: rest =>
    (match op with
     | RegOp.publish d => if d.length ≠ 0 ∧ id ∈ regs then d else []
     | _ => []) ++ recvBy id (regStep regs op) rest

/-- Concatenated bytes of all buffers published in a trace, in publish
order. -/
def pubsBytes : List RegOp → Bytes
  | [] => []
  | RegOp.publish d :: rest => d ++ pubsBytes rest
  | _ :: rest => pubsBytes rest

/-- Does this operation mention client `id` (registration or close)? -/
def touchesId (id : ℕ) : RegOp → Bool
  | RegOp.add i => i = id
  | RegOp.close i => i = id
  | RegOp.publish _ => false

/-- Is this operation a registration of client `id`? -/
def addsId (id : ℕ) : RegOp → Bool
  | RegOp.add i => i = id
  | _ => false

/-- Is this operation the close event of client `id`? -/
def closesId (id : ℕ) : RegOp → Bool
  | RegOp.close i => i = id
  | _ => false

/-- Registered client ids after a trace of registry operations. -/
def regsAfter (regs : List ℕ) : List RegOp → List ℕ
  | [] => regs
  | op :: rest => regsAfter (regStep regs op) rest

/-- Sample rate of the audio engine (44100 Hz).  The defining module
`src/audio-engine.ts` is not part of the provided sources; the value is
the one fixed by `src/mp3-encoder.ts` and by the spec (§8). -/
def SAMPLE_RATE : ℕ := 44100

/-- Truncation of a rational toward zero, the `ToIntegerOrInfinity` step
of JS's conversion of a `number` into an `Int16Array` element. -/
def ratTrunc (q : ℚ) : ℤ :=
  if 0 ≤ q then ⌊q⌋ else -⌊-q⌋

/-- Wrap of an integer into the signed 16-bit range, the final step of
JS's `Int16Array` element conversion (modulo 2^16, re-centered). -/
def toInt16 (n : ℤ) : ℤ :=
  (n + 32768) % 65536 - 32768

/-- The clamp `Math.max(-1, Math.min(1, x))` of `encodeChunk`. -/
def clampUnit (x : ℚ) : ℚ :=
  max (-1) (min 1 x)

/-- Per-sample quantization of `Mp3StreamEncoder.encodeChunk`:
`l < 0 ? l * 0x8000 : l * 0x7fff` after the clamp, stored into an
`Int16Array` slot. -/
def quantizeSample (x : ℚ) : ℤ :=
  let c := clampUnit x
  toInt16 (ratTrunc (if c < 0 then c * 32768 else c * 32767))

/-- The `Int16Array` pair built by `encodeChunk` from a stereo buffer
before it is handed to the lamejs compressor. -/
def encodeChunkInt16 (buf : List Sample) : List ℤ × List ℤ :=
  (buf.map fun s => quantizeSample s.1, buf.map fun s => quantizeSample s.2)

/-- Source constant `CHUNK_DURATION = 2.0` (seconds per render chunk). -/
def CHUNK_DURATION : ℚ := 2.0

/-- Source constant `BUFFER_AHEAD_MS = 6000`. -/
def BUFFER_AHEAD_MS : ℚ := 6000

/-- Sample count `Math.ceil(CHUNK_DURATION * SAMPLE_RATE)` of a silence
chunk rendered when no pattern is set. -/
def chunkSamples : ℕ := (⌈CHUNK_DURATION * (SAMPLE_RATE : ℚ)⌉).toNat

/-- The half-second silence buffer `new Float32Array(SAMPLE_RATE * 0.5)`
sent by `stop()` (the same mono array is used for both channels). -/
def stopSilence : List Sample := List.replicate (SAMPLE_RATE / 2) (0, 0)

/-- Oracle type for the stateful lamejs compressor's `encodeBuffer` step:
from an abstract compressor state and a PCM chunk to the next compressor
state and the emitted MP3 bytes (possibly none while buffering). -/
abbrev EncFn : Type := ℕ → List Sample → ℕ × Bytes

/-- Oracle type for the compressor's `flush` step. -/
abbrev FlushFn : Type := ℕ → ℕ × Bytes

/-- Module state of the per-cycle render variant of `stream-manager.ts`:
`currentPattern` (opaque handle), `currentCps`, `cyclePosition`,
`isPlaying`, the pending re-arm timer (with its delay in ms),
`streamStartTime` and `totalAudioSent` (pacing counters), the TTS queue
state, the abstract encoder state, and the client set. -/
structure DJState where
  currentPattern : Option ℕ
  currentCps : ℚ
  cyclePosition : ℚ
  isPlaying : Bool
  renderLoopTimer : Option ℚ
  streamStartTime : ℚ
  totalAudioSent : ℚ
  tts : TtsState
  encoder : ℕ
  clients : List Sink
deriving DecidableEq

/-- Initial module state of `stream-manager.ts` (`currentCps = 0.5`,
`cyclePosition = 0`, not playing, empty queue and client set). -/
def initDJ : DJState :=
  ⟨none, 0.5, 0, false, none, 0, 0, initTts, 0, []⟩

/-- Delay passed to `setTimeout` by `scheduleNextChunk`, as a function of
`aheadBy`: `aheadBy > BUFFER_AHEAD_MS ? aheadBy - BUFFER_AHEAD_MS : 0`,
floored by `Math.max(delay, 10)`. -/
def pacingDelay (aheadBy : ℚ) : ℚ :=
  max (if BUFFER_AHEAD_MS < aheadBy then aheadBy - BUFFER_AHEAD_MS else 0) 10

/-- Embedding of `scheduleNextChunk()`: no-op when not playing; otherwise
latches `streamStartTime` on first use, computes how far ahead of
wall-clock the sent audio is, and arms the timer with the pacing delay.
`now` is the value of `Date.now()` in ms. -/
def scheduleNextChunk (now : ℚ) (st : DJState) : DJState :=
  if st.isPlaying = false then st
  else
    let start := if st.streamStartTime = 0 then now else st.streamStartTime
    let wallElapsed := (now - start) / 1000
    let aheadBy := (st.totalAudioSent - wallElapsed) * 1000
    { st with streamStartTime := start, renderLoopTimer := some (pacingDelay aheadBy) }

/-- Embedding of `renderAndBroadcast()`.  `renderResult` is the outcome
of the external `renderChunk` call for this cycle's window (`none` means
the renderer threw, which the `catch` absorbs after undoing nothing —
the state advancement, mix, encode and broadcast are all skipped).  When
no pattern is set the renderer is not called and a silence chunk is
used.  In every case `scheduleNextChunk` re-arms the loop afterwards.
Returns the new state and the deliveries made to clients. -/
def renderAndBroadcast (ef : EncFn) (renderResult : Option (List Sample)) (now : ℚ)
    (st : DJState) : DJState × List (ℕ × Bytes) :=
  if st.isPlaying = false then (st, [])
  else
    let cycleEnd := st.cyclePosition + st.currentCps * CHUNK_DURATION
    match st.currentPattern, renderResult with
    | some _, none => (scheduleNextChunk now st, [])
    | pat, rr =>
      let pcm : List Sample :=
        match pat, rr with
        | some _, some buf => buf
        | _, _ => List.replicate chunkSamples (0, 0)
      let m := mixTts pcm st.tts
      let e := ef st.encoder m.1
      let b := broadcast e.2 st.clients
      let st' : DJState :=
        { st with
          tts := m.2, encoder := e.1, clients := b.1,
          cyclePosition := cycleEnd,
          totalAudioSent := st.totalAudioSent + CHUNK_DURATION }
      (scheduleNextChunk now st', b.2)

/-- Embedding of `stop()`: clears the playing flag, the pattern and the
pending timer, then encodes and broadcasts a half-second silence chunk
followed by the encoder flush output.  `cyclePosition`, the TTS queue
and the pacing counters are not touched. -/
def stop (ef : EncFn) (ff : FlushFn) (st : DJState) : DJState × List (ℕ × Bytes) :=
  let st1 : DJState :=
    { st with isPlaying := false, currentPattern := none, renderLoopTimer := none }
  let e := ef st1.encoder stopSilence
  let f := ff e.1
  let b1 := broadcast e.2 st1.clients
  let b2 := broadcast f.2 b1.1
  ({ st1 with encoder := f.1, clients := b2.1 }, b1.2 ++ b2.2)

/-- Embedding of `start()`: idempotent if already playing; otherwise sets
the playing flag, constructs a fresh encoder (abstract state `0`), resets
the pacing counters and arms the first cycle. -/
def start (now : ℚ) (st : DJState) : DJState :=
  if st.isPlaying then st
  else
    scheduleNextChunk now
      { st with isPlaying := true, encoder := 0, streamStartTime := 0, totalAudioSent := 0 }

/-- Embedding of `setPattern(pattern)`: installs the handle and starts
the render loop if it is not running. -/
def setPattern (p : ℕ) (now : ℚ) (st : DJState) : DJState :=
  let st1 : DJState := { st with currentPattern := some p }
  if st1.isPlaying then st1 else start now st1

/-- Embedding of `setCps(cps)`. -/
def setCps (c : ℚ) (st : DJState) : DJState :=
  { st with currentCps := c }

/-- Iterated render cycles with a fixed renderer outcome and clock. -/
def runNCycles (ef : EncFn) (rr : Option (List Sample)) (now : ℚ) :
    ℕ → DJState → DJState
  | 0, st => st
  | n + 1, st => runNCycles ef rr now n (renderAndBroadcast ef rr now st).1

/-- Cycle Position accumulation of `renderAndBroadcast`
(`cyclePosition = cycleEnd = cyclePosition + cps * CHUNK_DURATION` per
completed cycle), with the chunk-duration constant generalized to an
arbitrary `D` as the spec's statement quantifies over it. -/
def cyclePosAfter (T D : ℚ) : ℕ → ℚ
  | 0 => 0
  | n + 1 => cyclePosAfter T D n + T * D

/-- Helper facts about `streamOf` at offset zero. -/
theorem streamOf_zero (q : List (List Sample)) : streamOf q 0 = q.flatten := by
  cases q with
  | nil => simp [streamOf]
  | cons t rest => simp [streamOf]

/-- List helper: mixing a music buffer against a pending stream `A ++ F`
splits at the boundary of `A` when `A` fits inside the music buffer. -/
theorem zip_mix_split (m A F : List Sample) (h : A.length ≤ m.length) :
    List.zipWith mixSample m (A ++ F) ++ m.drop (A ++ F).length =
    List.zipWith mixSample (m.take A.length) A ++
      (List.zipWith mixSample (m.drop A.length) F ++ (m.drop A.length).drop F.length) := by
  have hu : (m.take A.length).length = A.length := by
    rw [List.length_take]
    omega
  calc List.zipWith mixSample m (A ++ F) ++ m.drop (A ++ F).length
      = List.zipWith mixSample (m.take A.length ++ m.drop A.length) (A ++ F) ++
          m.drop (A ++ F).length := by rw [List.take_append_drop]
    _ = (List.zipWith mixSample (m.take A.length) A ++
          List.zipWith mixSample (m.drop A.length) F) ++ m.drop (A ++ F).length := by
          rw [List.zipWith_append _ _ _ _ _ hu]
    _ = (List.zipWith mixSample (m.take A.length) A ++
          List.zipWith mixSample (m.drop A.length) F) ++ (m.drop A.length).drop F.length := by
          rw [List.drop_drop, List.length_append]
    _ = List.zipWith mixSample (m.take A.length) A ++
          (List.zipWith mixSample (m.drop A.length) F ++ (m.drop A.length).drop F.length) := by
          rw [List.append_assoc]

/-- List helper: mixing a music buffer against a pending stream `A ++ F`
touches only the first `m.length` samples of `A` when the music buffer is
exhausted inside `A`. -/
theorem zip_mix_trunc (m A F : List Sample) (h : m.length ≤ A.length) :
    List.zipWith mixSample m (A ++ F) ++ m.drop (A ++ F).length =
    List.zipWith mixSample (m.take m.length) (A.take m.length) ++ m.drop m.length := by
  have h1 : m.drop (A ++ F).length = [] := by
    refine List.drop_eq_nil_of_le ?_
    rw [List.length_append]
    omega
  have h2 : m.drop m.length = [] := List.drop_eq_nil_of_le (le_refl _)
  rw [h1, h2, List.append_nil, List.append_nil, List.take_length]
  have hlz : (List.zipWith mixSample m (A ++ F)).length = m.length := by
    rw [List.length_zipWith, List.length_append]
    omega
  calc List.zipWith mixSample m (A ++ F)
      = (List.zipWith mixSample m (A ++ F)).take m.length := by
        rw [List.take_of_length_le (le_of_eq hlz)]
    _ = List.zipWith mixSample (m.take m.length) ((A ++ F).take m.length) := by
        rw [List.take_zipWith]
    _ = List.zipWith mixSample m ((A ++ F).take m.length) := by
        rw [List.take_length]
    _ = List.zipWith mixSample m (A.take m.length) := by
        rw [List.take_append_eq_append_take, Nat.sub_eq_zero_of_le h, List.take_zero,
          List.append_nil]

/-- List helper: dropping past the first block of an append. -/
theorem drop_append_of_le_length (A F : List Sample) (n : ℕ) (h : A.length ≤ n) :
    (A ++ F).drop n = F.drop (n - A.length) := by
  rw [List.drop_append_eq_append_drop, List.drop_eq_nil_of_le h, List.nil_append]

/-- List helper: dropping inside the first block of an append. -/
theorem drop_append_of_ge_length (A F : List Sample) (n : ℕ) (h : n ≤ A.length) :
    (A ++ F).drop n = A.drop n ++ F := by
  rw [List.drop_append_eq_append_drop, Nat.sub_eq_zero_of_le h, List.drop_zero]

/-- Structural characterization of the `mixTts` loop: the produced music
buffer is the ducked mix of the music with the pending announcement
stream on their common prefix, with the remainder of the music buffer
untouched; and the pending stream left in the queue is the old pending
stream with the chunk's length consumed from the front. -/
theorem mixLoop_spec (q : List (List Sample)) : ∀ (music : List Sample) (off : ℕ),
    (mixLoop music q off).1 =
      List.zipWith mixSample music (streamOf q off) ++ music.drop (streamOf q off).length ∧
    streamOf (mixLoop music q off).2.1 (mixLoop music q off).2.2 =
      (streamOf q off).drop music.length := by
  induction q with
  | nil =>
    intro music off
    simp [mixLoop, streamOf]
  | cons t rest ih =>
    intro music off
    by_cases hm : music = []
    · subst hm
      simp [mixLoop, streamOf]
    · have hlen : (t.drop off).length = t.length - off := List.length_drop _ _
      have h1 : min (t.length - off) music.length ≤ t.length - off := Nat.min_le_left _ _
      have h2 : min (t.length - off) music.length ≤ music.length := Nat.min_le_right _ _
      by_cases hs : t.length ≤ off + min (t.length - off) music.length
      · -- shift branch: the head entry is fully consumed
        have htm : min (t.length - off) music.length = (t.drop off).length := by omega
        obtain ⟨ih1, ih2⟩ := ih (music.drop (min (t.length - off) music.length)) 0
        rw [streamOf_zero] at ih1 ih2
        constructor
        · simp only [mixLoop, if_neg hm, if_pos hs]
          rw [ih1, streamOf, zip_mix_split _ _ _ (by omega), htm, List.take_length]
        · simp only [mixLoop, if_neg hm, if_pos hs]
          rw [ih2, streamOf, drop_append_of_le_length _ _ _ (by omega), htm,
            List.length_drop]
      · -- the chunk is exhausted before the head entry is
        have htm : min (t.length - off) music.length = music.length := by omega
        constructor
        · simp only [mixLoop, if_neg hm, if_neg hs]
          rw [streamOf, zip_mix_trunc _ _ _ (by omega), htm]
        · simp only [mixLoop, if_neg hm, if_neg hs]
          rw [streamOf, streamOf, drop_append_of_ge_length _ _ _ (by omega), htm,
            List.drop_drop]

/-- Characterization of `mixTts` at the state level: the mixed output is
the ducked mix over the pending stream's common prefix with the music
(rest untouched), and the pending stream shrinks by the chunk length. -/
theorem mixTts_spec (music : List Sample) (st : TtsState) :
    (mixTts music st).1 =
      List.zipWith mixSample music (streamSt st) ++ music.drop (streamSt st).length ∧
    streamSt (mixTts music st).2 = (streamSt st).drop music.length := by
  obtain ⟨q, off⟩ := st
  cases q with
  | nil =>
    simp [mixTts, streamSt, streamOf]
  | cons t rest =>
    have h := mixLoop_spec (t :: rest) music off
    simp only [mixTts, List.length_cons, streamSt] at h ⊢
    rw [if_neg (by omega)]
    exact h

/-- Pushing a buffer appends it to the pending announcement stream,
provided the state is well formed (offset zero on an empty queue). -/
theorem mixTtsAudio_stream (b : List Sample) (st : TtsState) (h : ttsWF st) :
    streamSt (mixTtsAudio b st) = streamSt st ++ b := by
  obtain ⟨q, off⟩ := st
  cases q with
  | nil =>
    have h0 : off = 0 := h
    subst h0
    simp [mixTtsAudio, streamSt, streamOf]
  | cons t rest =>
    simp [mixTtsAudio, streamSt, streamOf, List.flatten_append]

/-- Unfolding of `ttsWF` as a pair of conditions on the head entry. -/
theorem ttsWF_iff (st : TtsState) : ttsWF st ↔
    ((st.ttsQueue = [] → st.ttsOffset = 0) ∧
      ∀ t, st.ttsQueue.head? = some t → st.ttsOffset ≤ t.length) := by
  obtain ⟨q, off⟩ := st
  cases q with
  | nil => simp [ttsWF]
  | cons t rest => simp [ttsWF]

/-- Unfolding of `ttsInv` as conditions on the head entry. -/
theorem ttsInv_iff (st : TtsState) : ttsInv st ↔
    ((st.ttsQueue = [] → st.ttsOffset = 0) ∧
      ∀ t, st.ttsQueue.head? = some t → st.ttsOffset < t.length) := by
  obtain ⟨q, off⟩ := st
  cases q with
  | nil => simp [ttsInv]
  | cons t rest => simp [ttsInv]

/-- The `mixTts` loop keeps the queue state well formed: on exit the
offset is zero if the queue has drained and otherwise still at most the
head entry's length. -/
theorem mixLoop_wf (q : List (List Sample)) : ∀ (music : List Sample) (off : ℕ),
    (q = [] → off = 0) →
    (∀ t, q.head? = some t → off ≤ t.length) →
    ((mixLoop music q off).2.1 = [] → (mixLoop music q off).2.2 = 0) ∧
    (∀ t, (mixLoop music q off).2.1.head? = some t → (mixLoop music q off).2.2 ≤ t.length) := by
  induction q with
  | nil =>
    intro music off h0 _
    refine ⟨fun _ => h0 rfl, fun t ht => ?_⟩
    simp [mixLoop] at ht
  | cons t rest ih =>
    intro music off h0 hh
    by_cases hm : music = []
    · simp only [mixLoop, if_pos hm]
      exact ⟨fun hq => absurd hq (by simp), hh⟩
    · by_cases hs : t.length ≤ off + min (t.length - off) music.length
      · simp only [mixLoop, if_neg hm, if_pos hs]
        exact ih _ 0 (fun _ => rfl) (fun _ _ => Nat.zero_le _)
      · simp only [mixLoop, if_neg hm, if_neg hs]
        refine ⟨fun hq => absurd hq (by simp), fun u hu => ?_⟩
        have : u = t := by
          rw [List.head?_cons] at hu
          exact (Option.some.inj hu).symm
        subst this
        omega

/-- Strict variant of `mixLoop_wf`: when every queued entry is non-empty
the exit offset is strictly below the head entry's length, and all
remaining entries are still non-empty. -/
theorem mixLoop_strict (q : List (List Sample)) : ∀ (music : List Sample) (off : ℕ),
    (∀ u, u ∈ q → u ≠ []) →
    (q = [] → off = 0) →
    (∀ t, q.head? = some t → off < t.length) →
    ((mixLoop music q off).2.1 = [] → (mixLoop music q off).2.2 = 0) ∧
    (∀ t, (mixLoop music q off).2.1.head? = some t → (mixLoop music q off).2.2 < t.length) ∧
    (∀ u, u ∈ (mixLoop music q off).2.1 → u ≠ []) := by
  induction q with
  | nil =>
    intro music off _ h0 _
    refine ⟨fun _ => h0 rfl, fun t ht => ?_, fun u hu => ?_⟩
    · simp [mixLoop] at ht
    · simp [mixLoop] at hu
  | cons t rest ih =>
    intro music off hne h0 hh
    by_cases hm : music = []
    · simp only [mixLoop, if_pos hm]
      exact ⟨fun hq => absurd hq (by simp), hh, hne⟩
    · by_cases hs : t.length ≤ off + min (t.length - off) music.length
      · simp only [mixLoop, if_neg hm, if_pos hs]
        refine ih _ 0 (fun u hu => hne u (List.mem_cons_of_mem _ hu)) (fun _ => rfl) ?_
        intro u hu
        cases rest with
        | nil => simp at hu
        | cons r rs =>
          rw [List.head?_cons] at hu
          have hru : u = r := (Option.some.inj hu).symm
          subst hru
          have : u ≠ [] := hne u (by simp)
          have : 0 < u.length := List.length_pos.mpr this
          omega
      · simp only [mixLoop, if_neg hm, if_neg hs]
        refine ⟨fun hq => absurd hq (by simp), fun u hu => ?_, hne⟩
        have : u = t := by
          rw [List.head?_cons] at hu
          exact (Option.some.inj hu).symm
        subst this
        omega

/-- `mixTts` preserves weak well-formedness of the queue state. -/
theorem mixTts_wf (music : List Sample) (st : TtsState) (h : ttsWF st) :
    ttsWF (mixTts music st).2 := by
  obtain ⟨q, off⟩ := st
  cases q with
  | nil => simpa [mixTts] using h
  | cons t rest =>
    rw [ttsWF_iff] at h ⊢
    have hw := mixLoop_wf (t :: rest) music off h.1 h.2
    simp only [mixTts, List.length_cons, if_neg (by omega : ¬ rest.length + 1 = 0)]
    exact hw

/-- `mixTtsAudio` preserves weak well-formedness of the queue state. -/
theorem mixTtsAudio_wf (b : List Sample) (st : TtsState) (h : ttsWF st) :
    ttsWF (mixTtsAudio b st) := by
  obtain ⟨q, off⟩ := st
  cases q with
  | nil =>
    have h0 : off = 0 := h
    subst h0
    simp [mixTtsAudio, ttsWF]
  | cons t rest =>
    simpa [mixTtsAudio, ttsWF] using h

/-- Conservation along any operation sequence: the samples that were
pushed are exactly the samples consumed so far followed by the samples
still pending, and well-formedness is maintained. -/
theorem runTts_stream (ops : List TtsOp) : ∀ (st : TtsState), ttsWF st →
    ttsWF (runTts st ops) ∧
    streamSt st ++ pushedTts ops = consumedTts st ops ++ streamSt (runTts st ops) := by
  induction ops with
  | nil =>
    intro st h
    exact ⟨h, by simp [runTts, pushedTts, consumedTts]⟩
  | cons op rest ih =>
    intro st h
    cases op with
    | push b =>
      obtain ⟨ih1, ih2⟩ := ih (mixTtsAudio b st) (mixTtsAudio_wf b st h)
      refine ⟨ih1, ?_⟩
      simp only [runTts, pushedTts, consumedTts]
      rw [← ih2, mixTtsAudio_stream b st h, List.append_assoc]
    | mix m =>
      obtain ⟨ih1, ih2⟩ := ih (mixTts m st).2 (mixTts_wf m st h)
      refine ⟨ih1, ?_⟩
      simp only [runTts, pushedTts, consumedTts]
      rw [List.append_assoc, ← ih2, (mixTts_spec m st).2, ← List.append_assoc,
        List.take_append_drop]

/-- Strict invariant preservation of `mixTts` at the state level, under
the assumption that every queued entry is non-empty. -/
theorem mixTts_strict (m : List Sample) (st : TtsState) (h1 : ttsInv st)
    (h2 : ∀ u, u ∈ st.ttsQueue → u ≠ []) :
    ttsInv (mixTts m st).2 ∧ ∀ u, u ∈ (mixTts m st).2.ttsQueue → u ≠ [] := by
  obtain ⟨q, off⟩ := st
  cases q with
  | nil =>
    refine ⟨by simp only [mixTts]; exact h1, by simp only [mixTts]; exact h2⟩
  | cons t rest =>
    rw [ttsInv_iff] at h1
    have hs := mixLoop_strict (t :: rest) m off h2 h1.1 h1.2
    constructor
    · rw [ttsInv_iff]
      simp only [mixTts, List.length_cons, if_neg (by omega : ¬ rest.length + 1 = 0)]
      exact ⟨hs.1, hs.2.1⟩
    · simp only [mixTts, List.length_cons, if_neg (by omega : ¬ rest.length + 1 = 0)]
      exact hs.2.2

/-- Strict invariant preservation of `mixTtsAudio` for a non-empty
pushed buffer. -/
theorem mixTtsAudio_strict (b : List Sample) (st : TtsState) (hb : b ≠ [])
    (h1 : ttsInv st) (h2 : ∀ u, u ∈ st.ttsQueue → u ≠ []) :
    ttsInv (mixTtsAudio b st) ∧ ∀ u, u ∈ (mixTtsAudio b st).ttsQueue → u ≠ [] := by
  obtain ⟨q, off⟩ := st
  have hmem : ∀ u, u ∈ q ++ [b] → u ≠ [] := by
    intro u hu
    rcases List.mem_append.mp hu with h | h
    · exact h2 u h
    · rwa [List.mem_singleton.mp h]
  cases q with
  | nil =>
    rw [ttsInv_iff] at h1 ⊢
    have h0 : off = 0 := h1.1 rfl
    subst h0
    refine ⟨⟨by simp [mixTtsAudio], ?_⟩, hmem⟩
    intro t ht
    simp [mixTtsAudio] at ht
    subst ht
    exact List.length_pos.mpr hb
  | cons t rest =>
    rw [ttsInv_iff] at h1 ⊢
    refine ⟨⟨by simp [mixTtsAudio], ?_⟩, hmem⟩
    intro u hu
    have hq : (mixTtsAudio b ⟨t :: rest, off⟩).ttsQueue = t :: (rest ++ [b]) := by
      simp [mixTtsAudio]
    rw [hq, List.head?_cons] at hu
    have hut : u = t := (Option.some.inj hu).symm
    subst hut
    exact h1.2 u (by simp)

/-- The strict offset invariant holds along every operation sequence in
which all pushed buffers are non-empty. -/
theorem runTts_inv (ops : List TtsOp) : ∀ (st : TtsState),
    pushesNonempty ops = true →
    ttsInv st → (∀ u, u ∈ st.ttsQueue → u ≠ []) →
    ttsInv (runTts st ops) ∧ ∀ u, u ∈ (runTts st ops).ttsQueue → u ≠ [] := by
  induction ops with
  | nil =>
    intro st _ h1 h2
    exact ⟨h1, h2⟩
  | cons op rest ih =>
    intro st hpn h1 h2
    rw [pushesNonempty, List.all_cons, Bool.and_eq_true] at hpn
    cases op with
    | push b =>
      have hb : b ≠ [] := by
        intro hb
        subst hb
        simp at hpn
      obtain ⟨p1, p2⟩ := mixTtsAudio_strict b st hb h1 h2
      exact ih (mixTtsAudio b st) hpn.2 p1 p2
    | mix m =>
      obtain ⟨p1, p2⟩ := mixTts_strict m st h1 h2
      exact ih (mixTts m st).2 hpn.2 p1 p2

/-- C4: along every sequence of `mixTtsAudio` submissions and `mixTts`
calls (from the initial empty queue), the submitted announcement samples
equal the samples consumed so far — strictly in submission order —
followed by the samples still pending at their stored offsets; in
particular, once the queue has fully drained, the samples consumed
across all calls are exactly the samples submitted. -/
theorem c4_queue_conservation (ops : List TtsOp) :
    pushedTts ops = consumedTts initTts ops ++ streamSt (runTts initTts ops) ∧
    ((runTts initTts ops).ttsQueue = [] → consumedTts initTts ops = pushedTts ops) := by
  have h := (runTts_stream ops initTts (by simp [ttsWF, initTts])).2
  rw [show streamSt initTts = [] from rfl, List.nil_append] at h
  refine ⟨h, fun hq => ?_⟩
  have hs : streamSt (runTts initTts ops) = [] := by
    rw [streamSt, hq]
    rfl
  rw [h, hs, List.append_nil]

/-- Witness: one queued announcement consumed by one two-sample chunk. -/
theorem c4_queue_conservation_witness :
    pushedTts [TtsOp.push [((1 : ℚ), 2)], TtsOp.mix [(0, 0), (0, 0)]] =
      consumedTts initTts [TtsOp.push [((1 : ℚ), 2)], TtsOp.mix [(0, 0), (0, 0)]] ++
        streamSt (runTts initTts [TtsOp.push [((1 : ℚ), 2)], TtsOp.mix [(0, 0), (0, 0)]]) ∧
    consumedTts initTts [TtsOp.push [((1 : ℚ), 2)], TtsOp.mix [(0, 0), (0, 0)]] =
      pushedTts [TtsOp.push [((1 : ℚ), 2)], TtsOp.mix [(0, 0), (0, 0)]] :=
  ⟨(c4_queue_conservation _).1, (c4_queue_conservation _).2 (by decide)⟩

/-- C5: `mixTts` on an empty announcement queue returns the music buffer
and the state unchanged; in general the output is the ducked mix on the
common prefix with the pending announcement stream, and every music
sample past the end of the queued announcement audio is untouched. -/
theorem c5_mix_identity (music : List Sample) (st : TtsState) :
    (st.ttsQueue = [] → mixTts music st = (music, st)) ∧
    (mixTts music st).1 =
      List.zipWith mixSample music (streamSt st) ++ music.drop (streamSt st).length ∧
    ((mixTts music st).1).drop (streamSt st).length = music.drop (streamSt st).length := by
  refine ⟨fun hq => by simp [mixTts, hq], (mixTts_spec music st).1, ?_⟩
  rw [(mixTts_spec music st).1, List.drop_append_eq_append_drop,
    List.drop_eq_nil_of_le (by rw [List.length_zipWith]; omega), List.nil_append,
    List.length_zipWith]
  rcases le_total (streamSt st).length music.length with h | h
  · rw [min_eq_right h, Nat.sub_self, List.drop_zero]
  · rw [List.drop_eq_nil_of_le h, List.drop_nil]

/-- Witness: a two-sample music buffer against the empty queue. -/
theorem c5_mix_identity_witness :
    mixTts [((1 : ℚ), 2), (3, 4)] initTts = ([((1 : ℚ), 2), (3, 4)], initTts) ∧
    (mixTts [((1 : ℚ), 2), (3, 4)] initTts).1.drop (streamSt initTts).length =
      [((1 : ℚ), 2), (3, 4)].drop (streamSt initTts).length :=
  ⟨(c5_mix_identity [((1 : ℚ), 2), (3, 4)] initTts).1 rfl,
    (c5_mix_identity [((1 : ℚ), 2), (3, 4)] initTts).2.2⟩

/-- Counterexample to C10 as stated: submitting a zero-length buffer via
`mixTtsAudio` yields a non-empty queue whose head has length `0` while
`ttsOffset = 0`, so the strict bound `ttsOffset < head.length` fails. -/
theorem c10_offset_invariant_counterexample :
    ¬ ttsInv (runTts initTts [TtsOp.push []]) := by
  intro h
  have h2 : (0 : ℕ) < ([] : List Sample).length := h.2
  simp at h2

/-- C10 (amended): along every interleaving of `mixTtsAudio` and
`mixTts` calls in which every submitted buffer is non-empty, the offset
satisfies `0 ≤ ttsOffset`, is `0` whenever the queue is empty, and is
strictly below the head entry's length whenever the queue is non-empty
(so no mix call reads an announcement buffer out of bounds). -/
theorem c10_offset_invariant_amended (ops : List TtsOp)
    (h : pushesNonempty ops = true) :
    ttsInv (runTts initTts ops) :=
  (runTts_inv ops initTts h (by simp [ttsInv, initTts]) (by simp [initTts])).1

/-- Witness: a non-empty announcement partially consumed by a chunk. -/
theorem c10_offset_invariant_amended_witness :
    ttsInv (runTts initTts [TtsOp.push [((1 : ℚ), 1), (2, 2)], TtsOp.mix [(0, 0)]]) :=
  c10_offset_invariant_amended _ (by decide)

/-- The broadcast iteration keeps exactly the non-failing sinks and
delivers the buffer to each of them, in iteration order. -/
theorem broadcastGo_spec (data : Bytes) : ∀ cs : List Sink,
    broadcastGo data cs =
      (cs.filter fun c => !c.fails,
        (cs.filter fun c => !c.fails).map fun c => (c.id, data)) := by
  intro cs
  induction cs with
  | nil => simp [broadcastGo]
  | cons c rest ih =>
    by_cases hf : c.fails
    · simp [broadcastGo, ih, hf]
    · simp [broadcastGo, ih, hf]

/-- C3: for every non-empty published buffer, every sink whose write
throws is removed from the listener set by that one `broadcast` call,
every other sink stays registered and receives exactly that buffer, and
no failure escapes to the caller (the surviving set and the delivery
list are total functions of the inputs). -/
theorem c3_broadcast_fault_isolation (data : Bytes) (cs : List Sink) (h : data ≠ []) :
    (broadcast data cs).1 = cs.filter (fun c => !c.fails) ∧
    (broadcast data cs).2 = (cs.filter fun c => !c.fails).map (fun c => (c.id, data)) ∧
    ∀ c, c ∈ cs → c.fails = true → c ∉ (broadcast data cs).1 := by
  have hlen : ¬ data.length = 0 := by
    intro h0
    exact h (List.length_eq_zero.mp h0)
  rw [broadcast, if_neg hlen, broadcastGo_spec]
  refine ⟨rfl, rfl, fun c _ hc hmem => ?_⟩
  have := List.of_mem_filter hmem
  rw [hc] at this
  simp at this

/-- Witness: three sinks, the middle one failing. -/
theorem c3_broadcast_fault_isolation_witness :
    ((broadcast [1] [Sink.mk 1 false, Sink.mk 2 true, Sink.mk 3 false]).1 =
      [Sink.mk 1 false, Sink.mk 2 true, Sink.mk 3 false].filter (fun c => !c.fails) ∧
    (broadcast [1] [Sink.mk 1 false, Sink.mk 2 true, Sink.mk 3 false]).2 =
      ([Sink.mk 1 false, Sink.mk 2 true, Sink.mk 3 false].filter fun c => !c.fails).map
        (fun c => (c.id, [1])) ∧
    ∀ c, c ∈ [Sink.mk 1 false, Sink.mk 2 true, Sink.mk 3 false] → c.fails = true →
      c ∉ (broadcast [1] [Sink.mk 1 false, Sink.mk 2 true, Sink.mk 3 false]).1) ∧
    (broadcast [1] [Sink.mk 1 false, Sink.mk 2 true, Sink.mk 3 false]).2 =
      [(1, [1]), (3, [1])] :=
  ⟨c3_broadcast_fault_isolation [1] [Sink.mk 1 false, Sink.mk 2 true, Sink.mk 3 false]
      (by decide), by decide⟩

/-- Bytes received over an appended trace split at the boundary. -/
theorem recvBy_append (id : ℕ) : ∀ (pre : List RegOp) (regs : List ℕ) (tail : List RegOp),
    recvBy id regs (pre ++ tail) = recvBy id regs pre ++ recvBy id (regsAfter regs pre) tail := by
  intro pre
  induction pre with
  | nil =>
    intro regs tail
    simp [recvBy, regsAfter]
  | cons op rest ih =>
    intro regs tail
    simp only [List.cons_append, recvBy, regsAfter]
    rw [List.append_assoc]
    congr 1
    exact ih (regStep regs op) tail

/-- A client that is not registered and never re-added receives nothing. -/
theorem recvBy_not_mem (id : ℕ) : ∀ (ops : List RegOp) (regs : List ℕ),
    id ∉ regs → (ops.all fun op => !addsId id op) = true → recvBy id regs ops = [] := by
  intro ops
  induction ops with
  | nil =>
    intro regs _ _
    rfl
  | cons op rest ih =>
    intro regs hmem hall
    rw [List.all_cons, Bool.and_eq_true] at hall
    cases op with
    | add i =>
      have hne : i ≠ id := by
        intro he
        subst he
        simp [addsId] at hall
      have : id ∉ regStep regs (RegOp.add i) := by
        simp only [regStep]
        by_cases hi : i ∈ regs
        · rwa [if_pos hi]
        · rw [if_neg hi]
          intro hmm
          rcases List.mem_append.mp hmm with hmm | hmm
          · exact hmem hmm
          · exact hne (List.mem_singleton.mp hmm).symm
      simpa [recvBy] using ih (regStep regs (RegOp.add i)) this hall.2
    | close i =>
      have : id ∉ regStep regs (RegOp.close i) := by
        simp only [regStep]
        intro hmm
        exact hmem (List.mem_of_mem_erase hmm)
      simpa [recvBy] using ih (regStep regs (RegOp.close i)) this hall.2
    | publish d =>
      have h1 : ¬ (d.length ≠ 0 ∧ id ∈ regs) := fun hc => hmem hc.2
      simp only [recvBy, regStep, if_neg h1, List.nil_append]
      exact ih regs hmem hall.2

/-- While no operation touches a given unregistered client, it stays
unregistered and receives nothing. -/
theorem untouched_pre (id : ℕ) : ∀ (pre : List RegOp) (regs : List ℕ),
    id ∉ regs → (pre.all fun op => !touchesId id op) = true →
    id ∉ regsAfter regs pre ∧ recvBy id regs pre = [] := by
  intro pre
  induction pre with
  | nil =>
    intro regs hmem _
    exact ⟨hmem, rfl⟩
  | cons op rest ih =>
    intro regs hmem hall
    rw [List.all_cons, Bool.and_eq_true] at hall
    have hstep : id ∉ regStep regs op := by
      cases op with
      | add i =>
        have hne : i ≠ id := by
          intro he
          subst he
          simp [touchesId] at hall
        simp only [regStep]
        by_cases hi : i ∈ regs
        · rwa [if_pos hi]
        · rw [if_neg hi]
          intro hmm
          rcases List.mem_append.mp hmm with hmm | hmm
          · exact hmem hmm
          · exact hne (List.mem_singleton.mp hmm).symm
      | close i =>
        simp only [regStep]
        intro hmm
        exact hmem (List.mem_of_mem_erase hmm)
      | publish d =>
        exact hmem
    obtain ⟨ih1, ih2⟩ := ih (regStep regs op) hstep hall.2
    refine ⟨ih1, ?_⟩
    cases op with
    | add i => simpa [recvBy] using ih2
    | close i => simpa [recvBy] using ih2
    | publish d =>
      have h1 : ¬ (d.length ≠ 0 ∧ id ∈ regs) := fun hc => hmem hc.2
      simp only [recvBy, regStep, if_neg h1, List.nil_append]
      exact ih2

/-- Registry steps preserve distinctness of the registered ids. -/
theorem regStep_nodup (regs : List ℕ) (op : RegOp) (h : regs.Nodup) :
    (regStep regs op).Nodup := by
  cases op with
  | add i =>
    simp only [regStep]
    by_cases hi : i ∈ regs
    · rwa [if_pos hi]
    · rw [if_neg hi]
      rw [List.nodup_append]
      exact ⟨h, List.nodup_singleton i, fun a ha hb => hi (by rwa [List.mem_singleton.mp hb] at ha)⟩
  | close i =>
    exact h.erase i
  | publish d =>
    exact h

/-- A registered client receives exactly the concatenation, in publish
order, of the buffers published before its close event. -/
theorem recvBy_registered (id : ℕ) : ∀ (post : List RegOp) (regs : List ℕ),
    regs.Nodup → id ∈ regs →
    (post.all fun op => !addsId id op) = true →
    recvBy id regs post = pubsBytes (post.takeWhile fun op => !closesId id op) := by
  intro post
  induction post with
  | nil =>
    intro regs _ _ _
    rfl
  | cons op rest ih =>
    intro regs hnd hmem hall
    rw [List.all_cons, Bool.and_eq_true] at hall
    cases op with
    | add i =>
      have hne : i ≠ id := by
        intro he
        subst he
        simp [addsId] at hall
      have hmem' : id ∈ regStep regs (RegOp.add i) := by
        simp only [regStep]
        by_cases hi : i ∈ regs
        · rwa [if_pos hi]
        · rw [if_neg hi]
          exact List.mem_append.mpr (Or.inl hmem)
      have hnd' : (regStep regs (RegOp.add i)).Nodup := regStep_nodup regs _ hnd
      have ht : List.takeWhile (fun op => !closesId id op) (RegOp.add i :: rest) =
          RegOp.add i :: List.takeWhile (fun op => !closesId id op) rest :=
        List.takeWhile_cons_of_pos rfl
      rw [ht]
      simp only [recvBy, List.nil_append, pubsBytes]
      exact ih (regStep regs (RegOp.add i)) hnd' hmem' hall.2
    | close i =>
      by_cases hi : i = id
      · subst hi
        have hgone : i ∉ regs.erase i := hnd.not_mem_erase
        have hrest : recvBy i (regs.erase i) rest = [] :=
          recvBy_not_mem i rest (regs.erase i) hgone hall.2
        have ht : List.takeWhile (fun op => !closesId i op) (RegOp.close i :: rest) = [] :=
          List.takeWhile_cons_of_neg (by simp [closesId])
        rw [ht]
        simp only [recvBy, regStep, List.nil_append, hrest, pubsBytes]
      · have hmem' : id ∈ regs.erase i := (List.mem_erase_of_ne (fun he => hi he.symm)).mpr hmem
        have ht : List.takeWhile (fun op => !closesId id op) (RegOp.close i :: rest) =
            RegOp.close i :: List.takeWhile (fun op => !closesId id op) rest := by
          refine List.takeWhile_cons_of_pos ?_
          simp [closesId]
          exact hi
        rw [ht]
        simp only [recvBy, regStep, List.nil_append, pubsBytes]
        exact ih (regs.erase i) (hnd.erase i) hmem' hall.2
    | publish d =>
      have hd : (if d.length ≠ 0 ∧ id ∈ regs then d else []) = d := by
        by_cases h0 : d.length = 0
        · rw [if_neg (by tauto), List.length_eq_zero.mp h0]
        · rw [if_pos ⟨h0, hmem⟩]
      have ht : List.takeWhile (fun op => !closesId id op) (RegOp.publish d :: rest) =
          RegOp.publish d :: List.takeWhile (fun op => !closesId id op) rest :=
        List.takeWhile_cons_of_pos rfl
      rw [ht]
      simp only [recvBy, regStep, hd, pubsBytes]
      rw [ih regs hnd hmem hall.2]

/-- C9: a listener registered after an arbitrary prefix of activity
receives none of the previously broadcast bytes, and receives exactly
the concatenation, in strict publish order, of every buffer published
after its registration and before its close event. -/
theorem c9_no_replay (pre post : List RegOp) (id : ℕ)
    (hpre : (pre.all fun op => !touchesId id op) = true)
    (hpost : (post.all fun op => !addsId id op) = true) :
    recvBy id [] (pre ++ RegOp.add id :: post) =
      pubsBytes (post.takeWhile fun op => !closesId id op) := by
  obtain ⟨hnm, hnil⟩ := untouched_pre id pre [] (by simp) hpre
  rw [recvBy_append, hnil, List.nil_append]
  have hnd : (regsAfter [] pre).Nodup := by
    have : ∀ (ops : List RegOp) (regs : List ℕ), regs.Nodup → (regsAfter regs ops).Nodup := by
      intro ops
      induction ops with
      | nil => intro regs h; exact h
      | cons op rest ih => intro regs h; exact ih (regStep regs op) (regStep_nodup regs op h)
    exact this pre [] List.nodup_nil
  have hstep : regStep (regsAfter [] pre) (RegOp.add id) = regsAfter [] pre ++ [id] := by
    simp only [regStep, if_neg hnm]
  have hnd' : (regsAfter [] pre ++ [id]).Nodup := by
    rw [List.nodup_append]
    exact ⟨hnd, List.nodup_singleton id,
      fun a ha hb => by rw [List.mem_singleton.mp hb] at ha; exact hnm ha⟩
  have hmem' : id ∈ regsAfter [] pre ++ [id] := List.mem_append.mpr (Or.inr (by simp))
  simp only [recvBy, hstep, List.nil_append]
  exact recvBy_registered id post _ hnd' hmem' hpost

/-- Witness: listener 5 joins after two bytes were broadcast, receives
the one buffer published before its close event and nothing after. -/
theorem c9_no_replay_witness :
    (recvBy 5 [] ([RegOp.publish [9, 9]] ++ RegOp.add 5 ::
        [RegOp.publish [3], RegOp.close 5, RegOp.publish [4]]) =
      pubsBytes ([RegOp.publish [3], RegOp.close 5, RegOp.publish [4]].takeWhile
        fun op => !closesId 5 op)) ∧
    pubsBytes ([RegOp.publish [3], RegOp.close 5, RegOp.publish [4]].takeWhile
        fun op => !closesId 5 op) = [3] :=
  ⟨c9_no_replay [RegOp.publish [9, 9]] [RegOp.publish [3], RegOp.close 5, RegOp.publish [4]]
      5 (by decide) (by decide), by decide⟩

/-- The clamp of `encodeChunk` lands in the unit interval. -/
theorem clampUnit_bounds (x : ℚ) : -1 ≤ clampUnit x ∧ clampUnit x ≤ 1 := by
  unfold clampUnit
  refine ⟨le_max_left _ _, max_le (by norm_num) (min_le_left _ _)⟩

/-- Truncation toward zero of a rational in the signed 16-bit range
stays in the signed 16-bit range. -/
theorem ratTrunc_bounds (q : ℚ) (h1 : -32768 ≤ q) (h2 : q ≤ 32767) :
    -32768 ≤ ratTrunc q ∧ ratTrunc q ≤ 32767 := by
  unfold ratTrunc
  by_cases h : 0 ≤ q
  · rw [if_pos h]
    constructor
    · have hf : (0 : ℤ) ≤ ⌊q⌋ := Int.le_floor.mpr (by exact_mod_cast h)
      omega
    · have hf : (⌊q⌋ : ℚ) ≤ 32767 := le_trans (Int.floor_le q) h2
      exact_mod_cast hf
  · rw [if_neg h]
    push_neg at h
    constructor
    · have hle : -q ≤ 32768 := by linarith
      have hf : (⌊-q⌋ : ℚ) ≤ 32768 := le_trans (Int.floor_le _) hle
      have hf2 : ⌊-q⌋ ≤ 32768 := by exact_mod_cast hf
      omega
    · have hf : (0 : ℤ) ≤ ⌊-q⌋ := Int.le_floor.mpr (by push_cast; linarith)
      omega

/-- The `Int16Array` wrap is the identity on the signed 16-bit range. -/
theorem toInt16_eq_self (n : ℤ) (h1 : -32768 ≤ n) (h2 : n ≤ 32767) : toInt16 n = n := by
  unfold toInt16
  omega

/-- C7: `encodeChunk` clamps each sample symmetrically to the unit range
and then quantizes asymmetrically — a negative clamped value is scaled
by 32768 and a non-negative one by 32767, truncated toward zero — and
the `Int16Array` wrap never fires, so every quantized sample lies in the
signed 16-bit range `[-32768, 32767]`. -/
theorem c7_quantize_range (x : ℚ) :
    quantizeSample x =
      ratTrunc (if clampUnit x < 0 then clampUnit x * 32768 else clampUnit x * 32767) ∧
    -32768 ≤ quantizeSample x ∧ quantizeSample x ≤ 32767 := by
  obtain ⟨hc1, hc2⟩ := clampUnit_bounds x
  have hy : -32768 ≤ (if clampUnit x < 0 then clampUnit x * 32768 else clampUnit x * 32767) ∧
      (if clampUnit x < 0 then clampUnit x * 32768 else clampUnit x * 32767) ≤ 32767 := by
    by_cases hneg : clampUnit x < 0
    · rw [if_pos hneg]
      constructor
      · linarith
      · have : clampUnit x * 32768 < 0 := mul_neg_of_neg_of_pos hneg (by norm_num)
        linarith
    · rw [if_neg hneg]
      push_neg at hneg
      constructor
      · have : 0 ≤ clampUnit x * 32767 := mul_nonneg hneg (by norm_num)
        linarith
      · nlinarith
  obtain ⟨hb1, hb2⟩ := ratTrunc_bounds _ hy.1 hy.2
  have hq : quantizeSample x =
      toInt16 (ratTrunc (if clampUnit x < 0 then clampUnit x * 32768
        else clampUnit x * 32767)) := rfl
  rw [hq, toInt16_eq_self _ hb1 hb2]
  exact ⟨rfl, hb1, hb2⟩

/-- Fields of the state untouched by `scheduleNextChunk`. -/
theorem scheduleNextChunk_fields (now : ℚ) (st : DJState) :
    (scheduleNextChunk now st).cyclePosition = st.cyclePosition ∧
    (scheduleNextChunk now st).isPlaying = st.isPlaying ∧
    (scheduleNextChunk now st).currentPattern = st.currentPattern ∧
    (scheduleNextChunk now st).currentCps = st.currentCps ∧
    (scheduleNextChunk now st).totalAudioSent = st.totalAudioSent ∧
    (scheduleNextChunk now st).tts = st.tts ∧
    (scheduleNextChunk now st).encoder = st.encoder ∧
    (scheduleNextChunk now st).clients = st.clients := by
  unfold scheduleNextChunk
  by_cases hp : st.isPlaying = false
  · rw [if_pos hp]
    exact ⟨rfl, rfl, rfl, rfl, rfl, rfl, rfl, rfl⟩
  · rw [if_neg hp]
    exact ⟨rfl, rfl, rfl, rfl, rfl, rfl, rfl, rfl⟩

/-- A playing state is re-armed by `scheduleNextChunk`. -/
theorem scheduleNextChunk_rearms (now : ℚ) (st : DJState) (hp : st.isPlaying = true) :
    (scheduleNextChunk now st).renderLoopTimer.isSome = true := by
  unfold scheduleNextChunk
  rw [if_neg (by rw [hp]; simp)]
  rfl

/-- One successful render cycle (renderer returned a buffer, or no
pattern is set so silence is used) advances `cyclePosition` by exactly
`cps * CHUNK_DURATION` and preserves the playing flag, the pattern and
the tempo. -/
theorem renderAndBroadcast_advance (ef : EncFn) (rr : Option (List Sample)) (now : ℚ)
    (st : DJState) (hp : st.isPlaying = true)
    (hok : st.currentPattern = none ∨ rr.isSome = true) :
    (renderAndBroadcast ef rr now st).1.cyclePosition =
      st.cyclePosition + st.currentCps * CHUNK_DURATION ∧
    (renderAndBroadcast ef rr now st).1.isPlaying = true ∧
    (renderAndBroadcast ef rr now st).1.currentPattern = st.currentPattern ∧
    (renderAndBroadcast ef rr now st).1.currentCps = st.currentCps := by
  have hnp : ¬ st.isPlaying = false := by rw [hp]; simp
  cases hpat : st.currentPattern with
  | none =>
    cases rr with
    | none =>
      simp only [renderAndBroadcast, if_neg hnp, hpat]
      refine ⟨?_, ?_, ?_, ?_⟩ <;>
        simp [scheduleNextChunk_fields, hp, hpat]
    | some buf =>
      simp only [renderAndBroadcast, if_neg hnp, hpat]
      refine ⟨?_, ?_, ?_, ?_⟩ <;>
        simp [scheduleNextChunk_fields, hp, hpat]
  | some p =>
    cases rr with
    | none =>
      rw [hpat] at hok
      rcases hok with h | h
      · exact absurd h (by simp)
      · exact absurd h (by simp)
    | some buf =>
      simp only [renderAndBroadcast, if_neg hnp, hpat]
      refine ⟨?_, ?_, ?_, ?_⟩ <;>
        simp [scheduleNextChunk_fields, hp, hpat]

/-- Cycle Position accumulation over `n` successful cycles. -/
theorem runNCycles_cyclePos (ef : EncFn) (rr : Option (List Sample)) (now : ℚ) :
    ∀ (n : ℕ) (st : DJState), st.isPlaying = true →
    (st.currentPattern = none ∨ rr.isSome = true) →
    (runNCycles ef rr now n st).cyclePosition =
      st.cyclePosition + n * (st.currentCps * CHUNK_DURATION) := by
  intro n
  induction n with
  | zero =>
    intro st _ _
    simp [runNCycles]
  | succ n ih =>
    intro st hp hok
    obtain ⟨h1, h2, h3, h4⟩ := renderAndBroadcast_advance ef rr now st hp hok
    have hok' : (renderAndBroadcast ef rr now st).1.currentPattern = none ∨ rr.isSome = true := by
      rcases hok with h | h
      · exact Or.inl (by rw [h3, h])
      · exact Or.inr h
    have := ih (renderAndBroadcast ef rr now st).1 h2 hok'
    rw [runNCycles, this, h1, h4]
    push_cast
    ring

/-- C1: starting from Cycle Position `0`, after `n` completed render
cycles the Cycle Position equals `n * T * D` where `T` is the tempo and
`D` the chunk duration (`CHUNK_DURATION = 2.0` in the source); the
accumulation is exact for arbitrary `T` and `D`. -/
theorem c1_cycle_position (ef : EncFn) (rr : Option (List Sample)) (now : ℚ)
    (st : DJState) (n : ℕ) (hp : st.isPlaying = true)
    (hok : st.currentPattern = none ∨ rr.isSome = true)
    (h0 : st.cyclePosition = 0) :
    (runNCycles ef rr now n st).cyclePosition = n * st.currentCps * CHUNK_DURATION ∧
    ∀ (T D : ℚ) (m : ℕ), cyclePosAfter T D m = m * T * D := by
  constructor
  · rw [runNCycles_cyclePos ef rr now n st hp hok, h0, zero_add]
    ring
  · intro T D m
    induction m with
    | zero => simp [cyclePosAfter]
    | succ m ihm =>
      rw [cyclePosAfter, ihm]
      push_cast
      ring

/-- Witness: tempo `0.5`, chunk duration `2.0`; after `setPattern` (which
starts the loop) and three successful cycles, Cycle Position is `3.0`. -/
theorem c1_cycle_position_witness :
    (runNCycles (fun e _ => (e, [])) (some [((0 : ℚ), 0)]) 0 3
        (setPattern 7 0 initDJ)).cyclePosition = 3 ∧
    cyclePosAfter 0.5 2 3 = 3 * 0.5 * 2 := by
  have h := c1_cycle_position (fun e _ => (e, [])) (some [((0 : ℚ), 0)]) 0
    (setPattern 7 0 initDJ) 3 rfl (Or.inr rfl) rfl
  constructor
  · rw [h.1]
    have hc : (setPattern 7 0 initDJ).currentCps = 0.5 := rfl
    rw [hc]
    norm_num [CHUNK_DURATION]
  · exact h.2 0.5 2 3

/-- C2 (amended): when the external renderer throws while a pattern is
set, the error is caught: nothing is broadcast, the cycle's state
advancement (`cyclePosition`, `totalAudioSent`), the TTS queue, the
encoder and the client set are all left untouched, the scheduler stays
in the PLAYING state, and the loop re-arms its timer. -/
theorem c2_render_error_skips_cycle (ef : EncFn) (now : ℚ) (st : DJState)
    (hp : st.isPlaying = true) (hpat : st.currentPattern.isSome = true) :
    (renderAndBroadcast ef none now st).1.cyclePosition = st.cyclePosition ∧
    (renderAndBroadcast ef none now st).1.totalAudioSent = st.totalAudioSent ∧
    (renderAndBroadcast ef none now st).1.tts = st.tts ∧
    (renderAndBroadcast ef none now st).1.encoder = st.encoder ∧
    (renderAndBroadcast ef none now st).1.clients = st.clients ∧
    (renderAndBroadcast ef none now st).2 = [] ∧
    (renderAndBroadcast ef none now st).1.isPlaying = true ∧
    (renderAndBroadcast ef none now st).1.renderLoopTimer.isSome = true := by
  have hnp : ¬ st.isPlaying = false := by rw [hp]; simp
  obtain ⟨p, hpat'⟩ := Option.isSome_iff_exists.mp hpat
  have hred : renderAndBroadcast ef none now st = (scheduleNextChunk now st, []) := by
    simp only [renderAndBroadcast, if_neg hnp, hpat']
  rw [hred]
  obtain ⟨f1, f2, f3, f4, f5, f6, f7, f8⟩ := scheduleNextChunk_fields now st
  exact ⟨f1, f5, f6, f7, f8, rfl, by rw [f2, hp], scheduleNextChunk_rearms now st hp⟩

/-- Witness: a concrete playing state with a pattern whose render fails. -/
theorem c2_render_error_skips_cycle_witness :
    (renderAndBroadcast (fun e _ => (e, [])) none 0
        { initDJ with isPlaying := true, currentPattern := some 0 }).1.cyclePosition =
      ({ initDJ with isPlaying := true, currentPattern := some 0 } : DJState).cyclePosition ∧
    (renderAndBroadcast (fun e _ => (e, [])) none 0
        { initDJ with isPlaying := true, currentPattern := some 0 }).2 = [] ∧
    (renderAndBroadcast (fun e _ => (e, [])) none 0
        { initDJ with isPlaying := true, currentPattern := some 0 }).1.isPlaying = true := by
  have h := c2_render_error_skips_cycle (fun e _ => (e, [])) 0
    { initDJ with isPlaying := true, currentPattern := some 0 } rfl rfl
  exact ⟨h.1, h.2.2.2.2.2.1, h.2.2.2.2.2.2.1⟩

/-- Counterexample to C2 as stated: a cycle whose render throws is not
treated like a silent cycle — the silent cycle advances Cycle Position
by `cps * CHUNK_DURATION` while the failed cycle leaves it unchanged. -/
theorem c2_render_error_counterexample :
    (renderAndBroadcast (fun e _ => (e, [])) none 0
        { initDJ with isPlaying := true, currentPattern := some 0 }).1.cyclePosition ≠
    (renderAndBroadcast (fun e _ => (e, [])) none 0
        { initDJ with isPlaying := true, currentPattern := none }).1.cyclePosition := by
  have h1 : (renderAndBroadcast (fun e _ => (e, [])) none 0
      { initDJ with isPlaying := true, currentPattern := some 0 }).1.cyclePosition = 0 := rfl
  have h2 : (renderAndBroadcast (fun e _ => (e, [])) none 0
      { initDJ with isPlaying := true, currentPattern := none }).1.cyclePosition =
      (0 : ℚ) + 0.5 * CHUNK_DURATION := rfl
  rw [h1, h2]
  norm_num [CHUNK_DURATION]

/-- C6 (amended): `stop()` always leaves the state STOPPED with the
pending cycle cancelled and the Pattern Handle cleared, but the Cycle
Position is left unchanged rather than cleared; a second `stop()` leaves
all playback-observable state fields unchanged (it only re-runs the
silence-plus-flush encode and broadcast, touching the encoder and, on a
write failure, the client set). -/
theorem c6_stop_behaviour (ef : EncFn) (ff : FlushFn) (st : DJState) :
    (stop ef ff st).1.isPlaying = false ∧
    (stop ef ff st).1.renderLoopTimer = none ∧
    (stop ef ff st).1.currentPattern = none ∧
    (stop ef ff st).1.cyclePosition = st.cyclePosition ∧
    (stop ef ff (stop ef ff st).1).1.isPlaying = (stop ef ff st).1.isPlaying ∧
    (stop ef ff (stop ef ff st).1).1.renderLoopTimer = (stop ef ff st).1.renderLoopTimer ∧
    (stop ef ff (stop ef ff st).1).1.currentPattern = (stop ef ff st).1.currentPattern ∧
    (stop ef ff (stop ef ff st).1).1.cyclePosition = (stop ef ff st).1.cyclePosition ∧
    (stop ef ff (stop ef ff st).1).1.currentCps = (stop ef ff st).1.currentCps ∧
    (stop ef ff (stop ef ff st).1).1.streamStartTime = (stop ef ff st).1.streamStartTime ∧
    (stop ef ff (stop ef ff st).1).1.totalAudioSent = (stop ef ff st).1.totalAudioSent ∧
    (stop ef ff (stop ef ff st).1).1.tts = (stop ef ff st).1.tts :=
  ⟨rfl, rfl, rfl, rfl, rfl, rfl, rfl, rfl, rfl, rfl, rfl, rfl⟩

/-- Counterexample to C6 as stated: `stop()` does not clear the Cycle
Position (it stays at `3`), and a second `stop()` is not a no-op on the
broadcast output — with a compressor that emits bytes on encode and
flush, the second call delivers further bytes to the remaining client. -/
theorem c6_stop_counterexample :
    (stop (fun e _ => (e + 1, [1])) (fun e => (e + 1, [2]))
        { initDJ with
            isPlaying := true, cyclePosition := 3, clients := [Sink.mk 1 false] }).1.cyclePosition ≠ 0 ∧
    (stop (fun e _ => (e + 1, [1])) (fun e => (e + 1, [2]))
        (stop (fun e _ => (e + 1, [1])) (fun e => (e + 1, [2]))
          { initDJ with
              isPlaying := true, cyclePosition := 3, clients := [Sink.mk 1 false] }).1).2 ≠ [] := by
  constructor
  · have h : (stop (fun e _ => (e + 1, [1])) (fun e => (e + 1, [2]))
        { initDJ with
            isPlaying := true, cyclePosition := 3, clients := [Sink.mk 1 false] }).1.cyclePosition = 3 := rfl
    rw [h]
    norm_num
  · decide

/-- C8 (amended): `scheduleNextChunk` arms the timer with the pacing
delay of `aheadMs = (totalAudioSent - wallClockElapsed) * 1000`; when
`aheadMs` exceeds the lookahead threshold the delay is
`max (aheadMs - threshold) 10` — the 10 ms floor applies to this branch
too, not only to the immediate branch — and otherwise the delay is the
10 ms floor. -/
theorem c8_pacing_policy (st : DJState) (now : ℚ) (hp : st.isPlaying = true) :
    (scheduleNextChunk now st).renderLoopTimer =
      some (pacingDelay ((st.totalAudioSent -
        (now - (if st.streamStartTime = 0 then now else st.streamStartTime)) / 1000) * 1000)) ∧
    (∀ a : ℚ, BUFFER_AHEAD_MS < a → pacingDelay a = max (a - BUFFER_AHEAD_MS) 10) ∧
    (∀ a : ℚ, a ≤ BUFFER_AHEAD_MS → pacingDelay a = 10) := by
  refine ⟨?_, ?_, ?_⟩
  · unfold scheduleNextChunk
    rw [if_neg (by rw [hp]; simp)]
  · intro a ha
    rw [pacingDelay, if_pos ha]
  · intro a ha
    rw [pacingDelay, if_neg (not_lt.mpr ha)]
    exact max_eq_right (by norm_num)

/-- Witness: a playing state just started, and both delay branches at
concrete distances from the threshold. -/
theorem c8_pacing_policy_witness :
    (scheduleNextChunk 0 { initDJ with isPlaying := true }).renderLoopTimer =
      some (pacingDelay ((({ initDJ with isPlaying := true } : DJState).totalAudioSent -
        (0 - (if ({ initDJ with isPlaying := true } : DJState).streamStartTime = 0 then 0
          else ({ initDJ with isPlaying := true } : DJState).streamStartTime)) / 1000) *
            1000)) ∧
    pacingDelay 6020 = max ((6020 : ℚ) - BUFFER_AHEAD_MS) 10 ∧
    pacingDelay 5000 = 10 := by
  have h := c8_pacing_policy { initDJ with isPlaying := true } 0 rfl
  refine ⟨h.1, h.2.1 6020 (by norm_num [BUFFER_AHEAD_MS]), h.2.2 5000 (by norm_num [BUFFER_AHEAD_MS])⟩

/-- Counterexample to C8 as stated: with `aheadMs = 6004`, above the
threshold, the claimed delay `aheadMs - threshold = 4` differs from the
actual delay `Math.max(4, 10) = 10`. -/
theorem c8_pacing_counterexample :
    BUFFER_AHEAD_MS < (6004 : ℚ) ∧ pacingDelay 6004 = 10 ∧
    (6004 : ℚ) - BUFFER_AHEAD_MS ≠ 10 := by
  refine ⟨by norm_num [BUFFER_AHEAD_MS], ?_, by norm_num [BUFFER_AHEAD_MS]⟩
  rw [pacingDelay, if_pos (by norm_num [BUFFER_AHEAD_MS])]
  have h4 : (6004 : ℚ) - BUFFER_AHEAD_MS = 4 := by norm_num [BUFFER_AHEAD_MS]
  rw [h4]
  exact max_eq_right (by norm_num)

end DJ
